import Mathlib

set_option maxRecDepth 100000

/-!
Shallow embedding of `buffer::CircularBuffer<T, buffer_size, index_t>` from
`src/include/CircularBuffer.h`.

Modeling conventions:

* The template parameters are `cap : Nat` (`buffer_size`, a `size_t` value) and
  `W : Nat`, the bit width of the unsigned integer type `index_t`
  (`W = 8, 16, 32, 64` for `uint8_t`, `uint16_t`, `uint32_t`, `uint64_t`/`size_t`).
  The element type `T` is a type parameter `α`.
* An `index_t` value is a `Nat` in `[0, 2^W)`; every store into an `index_t`
  member or conversion to `index_t` reduces modulo `2 ^ W` (`isub`, `% 2 ^ W`).
* The platform is the standard LP64 model: `int` has 32 bits and `size_t` has
  64 bits.  In exactly two places the source compares the raw expression
  `m_head - m_tail` against a `size_t` operand without first converting it back
  to `index_t`: the full check in `insert` (line 127) and the range check in
  `at` (line 250).  There the C++ usual arithmetic conversions apply: for
  `W < 32` both operands are promoted to `int`, the subtraction is exact on the
  promoted values, and the (possibly negative) result is then converted to
  `size_t`, i.e. taken modulo `2 ^ 64`; for `W ≥ 32` the subtraction itself is
  performed in the unsigned type, i.e. modulo `2 ^ W`, and the value is then
  widened exactly.  `cmpDiff` captures both cases.  Everywhere else
  (`readAvailable`, `writeAvailable`, `remove(size_t)`, `writeBuff`, `readBuff`)
  the difference is immediately stored into an `index_t`, which reduces the
  result modulo `2 ^ W` and makes the promotion invisible, so those spots are
  modeled directly with `isub`.
* The storage array `T m_dataBuff[buffer_size]` is a total function `Nat → α`;
  the source only ever indexes it with `counter & buffer_mask`.
* Methods returning `T*` are modeled as returning `Option α` (`NULL` ↦ `none`,
  a valid pointer ↦ `some` of the pointed-to element).  A method call returns
  the object state it leaves behind explicitly; methods that do not assign to
  any member return the state unchanged.
* `remove(T *data)` stores through `data` only on success, so it is modeled as
  returning `Option α`: `none` means the call returned `false` and the output
  argument was left unmodified.
-/

namespace CircularBuffer

/-- Machine state of a `CircularBuffer<T, buffer_size, index_t>` object:
the two `index_t` counters `m_head` and `m_tail` and the storage array
`m_dataBuff`, modeled as a total function from physical slot index to value. -/
structure CB (α : Type) where
  m_head : Nat
  m_tail : Nat
  m_dataBuff : Nat → α

/-- Value of `a - b` computed in the unsigned `W`-bit type `index_t`
(equivalently: the exact difference reduced modulo `2 ^ W`), as produced by an
assignment or return of type `index_t`.  Correct for `b < 2 ^ W`, which holds
for every counter value the operations ever store. -/
def isub (W a b : Nat) : Nat := (a + 2 ^ W - b) % 2 ^ W

/-- Value of the C++ expression `m_head - m_tail` after conversion to `size_t`,
as it is compared against a `size_t` operand in `insert` and `at` without an
intermediate conversion back to `index_t`.  For `W < 32` integral promotion to
`int` makes the subtraction exact and the signed result converts to `size_t`
modulo `2 ^ 64`; for `W ≥ 32` the subtraction is performed modulo `2 ^ W`. -/
def cmpDiff (W h t : Nat) : Nat :=
  if W < 32 then (h + 2 ^ 64 - t) % 2 ^ 64 else isub W h t

/-- The constant `buffer_mask = buffer_size - 1`, stored as `index_t` (so the
`size_t` value `buffer_size - 1` is reduced modulo `2 ^ W`).  `buffer_size ≥ 1`
is assumed (a zero-length array is ill-formed C++). -/
def bmask (cap W : Nat) : Nat := (cap - 1) % 2 ^ W

/-- The check `(buffer_size & buffer_mask) == 0` asserted by the default
constructor (line 49).  `buffer_mask` is an `index_t` constant, widened back to
`size_t` for the bitwise and. -/
def ctorAssertOk (cap W : Nat) : Bool := (cap &&& bmask cap W) == 0

/-- Method `readAvailable()`: returns `m_head - m_tail` as `index_t`. -/
def readAvailable (W : Nat) (s : CB α) : Nat := isub W s.m_head s.m_tail

/-- Method `writeAvailable()`: returns `buffer_size - (m_head - m_tail)` as
`index_t`.  The inner difference and the outer subtraction from the `size_t`
constant collapse to `(cap - (m_head - m_tail))` modulo `2 ^ W` after the
conversion of the return value to `index_t`, for narrow and wide `index_t`
alike. -/
def writeAvailable (cap W : Nat) (s : CB α) : Nat :=
  isub W cap (isub W s.m_head s.m_tail)

/-- Method `isEmpty()`: `readAvailable() == 0`. -/
def isEmpty (W : Nat) (s : CB α) : Bool := readAvailable W s == 0

/-- Method `isFull()`: `writeAvailable() == 0`. -/
def isFull (cap W : Nat) (s : CB α) : Bool := writeAvailable cap W s == 0

/-- Method `clear()`: sets `m_tail = m_head`; storage is untouched. -/
def clear (s : CB α) : CB α := { s with m_tail := s.m_head }

/-- Method `bool insert(T data)` (line 126): if `(m_head - m_tail) == buffer_size`
(with the promoted comparison, see `cmpDiff`) return `false` without mutation;
otherwise store `data` at `m_dataBuff[m_head++ & buffer_mask]` and return
`true`. -/
def insert (cap W : Nat) (s : CB α) (data : α) : CB α × Bool :=
  if cmpDiff W s.m_head s.m_tail = cap then
    (s, false)
  else
    ({ m_head := (s.m_head + 1) % 2 ^ W
       m_tail := s.m_tail
       m_dataBuff := fun i => if i = s.m_head &&& bmask cap W then data else s.m_dataBuff i },
     true)

/-- Method `bool remove()` (line 161): if `m_tail == m_head` return `false`;
otherwise increment `m_tail` and return `true`. -/
def removeVoid (W : Nat) (s : CB α) : CB α × Bool :=
  if s.m_tail = s.m_head then
    (s, false)
  else
    ({ s with m_tail := (s.m_tail + 1) % 2 ^ W }, true)

/-- Method `size_t remove(size_t cnt)` (line 181): clamp `cnt` to
`avail = m_head - m_tail` (an `index_t`), advance `m_tail` by the clamped
count, return it. -/
def removeCnt (W : Nat) (s : CB α) (cnt : Nat) : CB α × Nat :=
  let avail := isub W s.m_head s.m_tail
  let cnt := if avail < cnt then avail else cnt
  ({ s with m_tail := (s.m_tail + cnt) % 2 ^ W }, cnt)

/-- Method `bool remove(T *data)` (line 214): on an empty buffer return `false`
leaving the output argument unmodified (`none`); otherwise copy
`m_dataBuff[m_tail++ & buffer_mask]` out (`some`) and return `true`. -/
def removePtr (cap W : Nat) (s : CB α) : CB α × Option α :=
  if s.m_tail = s.m_head then
    (s, none)
  else
    ({ s with m_tail := (s.m_tail + 1) % 2 ^ W },
     some (s.m_dataBuff (s.m_tail &&& bmask cap W)))

/-- Method `bool remove(T &data)` (line 200): delegates to `remove(T*)`. -/
def removeRef (cap W : Nat) (s : CB α) : CB α × Option α := removePtr cap W s

/-- Method `T *peek()` (line 231): `NULL` on an empty buffer, otherwise a
pointer to `m_dataBuff[m_tail & buffer_mask]`; no member is assigned. -/
def peek (cap W : Nat) (s : CB α) : CB α × Option α :=
  (s, if s.m_tail = s.m_head then none
      else some (s.m_dataBuff (s.m_tail &&& bmask cap W)))

/-- Method `T *at(size_t index)` (line 249): `NULL` when
`(m_head - m_tail) <= index` (with the promoted comparison, see `cmpDiff`),
otherwise a pointer to `m_dataBuff[(m_tail + index) & buffer_mask]`; no member
is assigned. -/
def atIdx (cap W : Nat) (s : CB α) (index : Nat) : CB α × Option α :=
  (s, if cmpDiff W s.m_head s.m_tail ≤ index then none
      else some (s.m_dataBuff ((s.m_tail + index) &&& bmask cap W)))

/-- Loop body of `writeBuff` (line 330): write the given values one after the
other at `m_dataBuff[m_head++ & buffer_mask]`. -/
def writeLoop (cap W : Nat) : CB α → List α → CB α
  | s, [] => s
  | s, d :: rest =>
    writeLoop cap W
      { m_head := (s.m_head + 1) % 2 ^ W
        m_tail := s.m_tail
        m_dataBuff := fun i => if i = s.m_head &&& bmask cap W then d else s.m_dataBuff i }
      rest

/-- Method `size_t writeBuff(const T *buff, size_t count)` (line 320): clamp
`count` to `available = buffer_size - (m_head - m_tail)` (an `index_t`), copy
the first `to_write` source elements into consecutive wrapping slots, return
`to_write`.  The source array is a list; the loop reads `buff[i]` only for
`i < to_write`, hence `buff.take to_write`. -/
def writeBuff (cap W : Nat) (s : CB α) (buff : List α) (count : Nat) : CB α × Nat :=
  let available := isub W cap (isub W s.m_head s.m_tail)
  let to_write := if available < count then available else count
  (writeLoop cap W s (buff.take to_write), to_write)

/-- Loop body of `readBuff` (line 363): read values one after the other from
`m_dataBuff[m_tail++ & buffer_mask]`, collecting `buff[0..n)` in order. -/
def readLoop (cap W : Nat) : CB α → Nat → CB α × List α
  | s, 0 => (s, [])
  | s, n + 1 =>
    let v := s.m_dataBuff (s.m_tail &&& bmask cap W)
    let r := readLoop cap W { s with m_tail := (s.m_tail + 1) % 2 ^ W } n
    (r.1, v :: r.2)

/-- Method `size_t readBuff(T *buff, size_t count)` (line 351): clamp `count`
to `available = m_head - m_tail` (an `index_t`), copy `to_read` elements out of
consecutive wrapping slots into the destination, return `to_read`.  The list
component is the destination prefix `buff[0..to_read)` that the loop wrote. -/
def readBuff (cap W : Nat) (s : CB α) (count : Nat) : CB α × List α × Nat :=
  let available := isub W s.m_head s.m_tail
  let to_read := if available < count then available else count
  let r := readLoop cap W s to_read
  (r.1, r.2, to_read)

/-- A sequence of `insert(T)` calls, one per list element, performed left to
right; the boolean is `true` iff every single call returned `true`. -/
def insertAll (cap W : Nat) : CB α → List α → CB α × Bool
  | s, [] => (s, true)
  | s, v :: rest =>
    let r := insert cap W s v
    let r2 := insertAll cap W r.1 rest
    (r2.1, r.2 && r2.2)

/-- A sequence of `n` calls to `remove(T*)`, collecting each call's outcome
(`none` = returned `false`, output untouched; `some v` = returned `true` and
stored `v`). -/
def removeAllPtr (cap W : Nat) : CB α → Nat → CB α × List (Option α)
  | s, 0 => (s, [])
  | s, n + 1 =>
    let r := removePtr cap W s
    let r2 := removeAllPtr cap W r.1 n
    (r2.1, r.2 :: r2.2)

/-- One public mutating operation of the class, used to describe reachable
states as the result of an operation sequence applied to a freshly constructed
buffer. -/
inductive Op (α : Type) where
  | ins (v : α)
  | rmVoid
  | rmPtr
  | rmCnt (n : Nat)
  | clearOp
  | wBuff (l : List α) (n : Nat)
  | rBuff (n : Nat)

/-- Apply one public operation to the buffer state (return values are
discarded; only the state evolution matters for reachability). -/
def step (cap W : Nat) (s : CB α) : Op α → CB α
  | .ins v => (insert cap W s v).1
  | .rmVoid => (removeVoid W s).1
  | .rmPtr => (removePtr cap W s).1
  | .rmCnt n => (removeCnt W s n).1
  | .clearOp => clear s
  | .wBuff l n => (writeBuff cap W s l n).1
  | .rBuff n => (readBuff cap W s n).1

/-- Apply a sequence of public operations from left to right. -/
def runOps (cap W : Nat) (s : CB α) : List (Op α) → CB α
  | [] => s
  | op :: rest => runOps cap W (step cap W s op) rest

/-- A sequence of `n` insert/remove pairs (used to drive the `index_t`
counters up towards their wraparound point while keeping the buffer empty). -/
def cycles (n : Nat) : List (Op Nat) :=
  match n with
  | 0 => []
  | n + 1 => Op.ins 0 :: Op.rmVoid :: cycles n

/-! Basic arithmetic facts about the modular index operations. -/

lemma two_pow_pos (W : Nat) : 0 < 2 ^ W := Nat.pos_pow_of_pos W (by norm_num)

/-- For counter values with `t ≤ h < 2 ^ W` the promoted comparison value of
`m_head - m_tail` is the exact difference, for narrow and wide `index_t`
alike. -/
lemma cmpDiff_of_le {W h t : Nat} (hh : h < 2 ^ W) (hle : t ≤ h) :
    cmpDiff W h t = h - t := by
  have hp : 0 < 2 ^ W := two_pow_pos W
  unfold cmpDiff isub
  split
  next hW32 =>
    have h64 : h < 2 ^ 64 :=
      lt_of_lt_of_le hh (Nat.pow_le_pow_right (by norm_num) (by omega))
    rw [show h + 2 ^ 64 - t = h - t + 2 ^ 64 by omega, Nat.add_mod_right,
      Nat.mod_eq_of_lt (by omega)]
  next =>
    rw [show h + 2 ^ W - t = h - t + 2 ^ W by omega, Nat.add_mod_right,
      Nat.mod_eq_of_lt (by omega)]

lemma cmpDiff_self (W t : Nat) : cmpDiff W t t = 0 := by
  have hp : 0 < 2 ^ W := two_pow_pos W
  unfold cmpDiff isub
  split
  · rw [show t + 2 ^ 64 - t = 2 ^ 64 by omega, Nat.mod_self]
  · rw [show t + 2 ^ W - t = 2 ^ W by omega, Nat.mod_self]

lemma isub_of_le {W h t : Nat} (hh : h < 2 ^ W) (hle : t ≤ h) : isub W h t = h - t := by
  have hp : 0 < 2 ^ W := two_pow_pos W
  unfold isub
  rw [show h + 2 ^ W - t = h - t + 2 ^ W by omega, Nat.add_mod_right,
    Nat.mod_eq_of_lt (by omega)]

/-- Advancing the tail by the available count lands it exactly on the head. -/
lemma tail_add_isub {W h t : Nat} (hh : h < 2 ^ W) (ht : t < 2 ^ W) :
    (t + isub W h t) % 2 ^ W = h := by
  have hp : 0 < 2 ^ W := two_pow_pos W
  unfold isub
  rw [Nat.add_mod_mod, show t + (h + 2 ^ W - t) = h + 2 ^ W by omega,
    Nat.add_mod_right, Nat.mod_eq_of_lt hh]

/-- Subtracting the old head from a head advanced by `d` recovers `d` mod `2^W`. -/
lemma isub_shift {W : Nat} (h : Nat) (hh : h < 2 ^ W) (d : Nat) :
    isub W ((h + d) % 2 ^ W) h = d % 2 ^ W := by
  have hp : 0 < 2 ^ W := two_pow_pos W
  have hmod : (h + d) % 2 ^ W < 2 ^ W := Nat.mod_lt _ hp
  unfold isub
  rw [show (h + d) % 2 ^ W + 2 ^ W - h = (h + d) % 2 ^ W + (2 ^ W - h) by omega,
    Nat.mod_add_mod, show h + d + (2 ^ W - h) = d + 2 ^ W by omega, Nat.add_mod_right]

lemma bmask_pow2 {j W : Nat} (hjW : j ≤ W) : bmask (2 ^ j) W = 2 ^ j - 1 := by
  have h1 : 0 < 2 ^ j := two_pow_pos j
  have h2 : 2 ^ j ≤ 2 ^ W := Nat.pow_le_pow_right (by norm_num) hjW
  have hp : 0 < 2 ^ W := two_pow_pos W
  unfold bmask
  exact Nat.mod_eq_of_lt (by omega)

/-- With a power-of-two capacity whose mask is representable in `index_t`,
masking is reduction modulo the capacity. -/
lemma land_bmask {j W : Nat} (hjW : j ≤ W) (x : Nat) :
    x &&& bmask (2 ^ j) W = x % 2 ^ j := by
  rw [bmask_pow2 hjW, Nat.and_pow_two_sub_one_eq_mod]

lemma modW_add_mod {j W : Nat} (hjW : j ≤ W) (a i : Nat) :
    (a % 2 ^ W + i) % 2 ^ j = (a + i) % 2 ^ j := by
  rw [← Nat.mod_add_mod, Nat.mod_mod_of_dvd a (pow_dvd_pow 2 hjW), Nat.mod_add_mod]

/-! Evaluation of operation sequences, used to exhibit reachable states. -/

lemma runOps_append (cap W : Nat) :
    ∀ (l1 l2 : List (Op α)) (s : CB α),
      runOps cap W s (l1 ++ l2) = runOps cap W (runOps cap W s l1) l2 := by
  intro l1
  induction l1 with
  | nil => intro l2 s; rfl
  | cons op rest ih => intro l2 s; simpa [runOps] using ih l2 (step cap W s op)

/-- Running `n` insert/remove pairs on an empty buffer with both counters at
`k` leaves an empty buffer with both counters advanced by `n` (mod `2^W`), with
all stored values still `0`. -/
lemma runOps_cycles (cap W : Nat) (hc : 0 < cap) (hW : 0 < W) :
    ∀ (n : Nat) (s : CB Nat) (k : Nat), s.m_head = k → s.m_tail = k →
      (∀ i, s.m_dataBuff i = 0) → k < 2 ^ W →
      (runOps cap W s (cycles n)).m_head = (k + n) % 2 ^ W ∧
      (runOps cap W s (cycles n)).m_tail = (k + n) % 2 ^ W ∧
      (∀ i, (runOps cap W s (cycles n)).m_dataBuff i = 0) := by
  intro n
  induction n with
  | zero =>
    intro s k hh ht hg hk
    simp [cycles, runOps, hh, ht, hg, Nat.mod_eq_of_lt hk]
  | succ n ih =>
    intro s k hh ht hg hk
    have hp : 0 < 2 ^ W := two_pow_pos W
    have h2W : 2 ≤ 2 ^ W := Nat.one_lt_two_pow (by omega)
    have hne : k ≠ (k + 1) % 2 ^ W := by
      rcases Nat.lt_or_ge (k + 1) (2 ^ W) with h | h
      · rw [Nat.mod_eq_of_lt h]; omega
      · have hk1 : k + 1 = 2 ^ W := by omega
        rw [hk1, Nat.mod_self]; omega
    have hins : step cap W s (Op.ins 0) =
        (⟨(k + 1) % 2 ^ W, k, fun i => if i = k &&& bmask cap W then 0 else s.m_dataBuff i⟩ : CB Nat) := by
      simp only [step, insert, hh, ht, cmpDiff_self]
      rw [if_neg (by omega)]
    have hrm : step cap W (⟨(k + 1) % 2 ^ W, k,
          fun i => if i = k &&& bmask cap W then 0 else s.m_dataBuff i⟩ : CB Nat) Op.rmVoid =
        (⟨(k + 1) % 2 ^ W, (k + 1) % 2 ^ W,
          fun i => if i = k &&& bmask cap W then 0 else s.m_dataBuff i⟩ : CB Nat) := by
      simp only [step, removeVoid]
      rw [if_neg hne]
    have hrun : runOps cap W s (cycles (n + 1)) =
        runOps cap W (⟨(k + 1) % 2 ^ W, (k + 1) % 2 ^ W,
          fun i => if i = k &&& bmask cap W then 0 else s.m_dataBuff i⟩ : CB Nat) (cycles n) := by
      simp only [cycles, runOps, hins, hrm]
    rw [hrun]
    have := ih (⟨(k + 1) % 2 ^ W, (k + 1) % 2 ^ W,
        fun i => if i = k &&& bmask cap W then 0 else s.m_dataBuff i⟩ : CB Nat)
      ((k + 1) % 2 ^ W) rfl rfl
      (by intro i; dsimp only; split <;> simp [hg]) (Nat.mod_lt _ hp)
    rw [Nat.mod_add_mod] at this
    rw [show k + 1 + n = k + (n + 1) by omega] at this
    exact this

/-- Running a burst of `r` single inserts with the tail pinned at `t` and the
head at `t + m` (mod `2^W`): with a narrow `index_t` (`W < 32`) every insert
whose exact occupancy check is not hit proceeds, even past the wraparound of
the head counter, because the promoted comparison value of a wrapped
difference is astronomically large and never equals `buffer_size`. -/
lemma runOps_inserts (cap W : Nat) (hW32 : W < 32) (hcap : cap < 2 ^ 64 - 2 ^ W) :
    ∀ (r m t : Nat) (s : CB Nat), s.m_head = (t + m) % 2 ^ W → s.m_tail = t →
      (∀ i, s.m_dataBuff i = 0) → m + r ≤ 2 ^ W → t < 2 ^ W →
      (∀ i, i < r → t + m + i < 2 ^ W → m + i ≠ cap) →
      (runOps cap W s (List.replicate r (Op.ins 0))).m_head = (t + m + r) % 2 ^ W ∧
      (runOps cap W s (List.replicate r (Op.ins 0))).m_tail = t ∧
      (∀ i, (runOps cap W s (List.replicate r (Op.ins 0))).m_dataBuff i = 0) := by
  intro r
  induction r with
  | zero =>
    intro m t s hh ht hg hmr htW hcond
    simp [runOps, hh, ht, hg]
  | succ r ih =>
    intro m t s hh ht hg hmr htW hcond
    have hp : 0 < 2 ^ W := two_pow_pos W
    have hWle : 2 ^ W ≤ 2 ^ 32 := Nat.pow_le_pow_right (by norm_num) (by omega)
    have h32 : (2 : Nat) ^ 32 ≤ (2 : Nat) ^ 64 := by norm_num
    have hfull : cmpDiff W s.m_head s.m_tail ≠ cap := by
      rw [hh, ht]
      rcases Nat.lt_or_ge (t + m) (2 ^ W) with hlt | hge
      · rw [Nat.mod_eq_of_lt hlt, cmpDiff_of_le hlt (by omega)]
        have := hcond 0 (by omega) (by omega)
        omega
      · have hmod : (t + m) % 2 ^ W = t + m - 2 ^ W := by
          rw [Nat.mod_eq_sub_mod hge, Nat.mod_eq_of_lt (by omega)]
        rw [hmod]
        unfold cmpDiff
        rw [if_pos hW32]
        have hbig : t + m - 2 ^ W + 2 ^ 64 - t = 2 ^ 64 - 2 ^ W + m := by omega
        rw [hbig, Nat.mod_eq_of_lt (by omega)]
        omega
    have hins : step cap W s (Op.ins 0) =
        (⟨(s.m_head + 1) % 2 ^ W, s.m_tail,
          fun i => if i = s.m_head &&& bmask cap W then 0 else s.m_dataBuff i⟩ : CB Nat) := by
      simp only [step, insert]
      rw [if_neg hfull]
    have hrun : runOps cap W s (List.replicate (r + 1) (Op.ins 0)) =
        runOps cap W (⟨(s.m_head + 1) % 2 ^ W, s.m_tail,
          fun i => if i = s.m_head &&& bmask cap W then 0 else s.m_dataBuff i⟩ : CB Nat)
          (List.replicate r (Op.ins 0)) := by
      rw [List.replicate_succ]
      simp only [runOps, hins]
    rw [hrun]
    have := ih (m + 1) t (⟨(s.m_head + 1) % 2 ^ W, s.m_tail,
        fun i => if i = s.m_head &&& bmask cap W then 0 else s.m_dataBuff i⟩ : CB Nat)
      (by rw [hh, Nat.mod_add_mod, show t + m + 1 = t + (m + 1) by omega]) ht
      (by intro i; dsimp only; split <;> simp [hg]) (by omega) htW
      (by intro i hi hlt; have := hcond (i + 1) (by omega) (by omega); omega)
    rw [show t + (m + 1) + r = t + m + (r + 1) by omega] at this
    exact this

lemma isub_self (W a : Nat) : isub W a a = 0 := by
  have hp : 0 < 2 ^ W := two_pow_pos W
  unfold isub
  rw [show a + 2 ^ W - a = 2 ^ W by omega, Nat.mod_self]

lemma writeLoop_tail (cap W : Nat) :
    ∀ (l : List α) (s : CB α), (writeLoop cap W s l).m_tail = s.m_tail := by
  intro l
  induction l with
  | nil => intro s; rfl
  | cons d rest ih =>
    intro s
    show (writeLoop cap W _ rest).m_tail = s.m_tail
    rw [ih]

lemma readLoop_head (cap W : Nat) :
    ∀ (n : Nat) (s : CB α), (readLoop cap W s n).1.m_head = s.m_head := by
  intro n
  induction n with
  | zero => intro s; rfl
  | succ n ih =>
    intro s
    show (readLoop cap W _ n).1.m_head = s.m_head
    rw [ih]

/-! Claim theorems. -/

/-- C5: the claim states that for every state with `head - tail == Capacity`
(difference in `index_t`, i.e. mod `2^W`) `insert` returns `false` and leaves
the state unchanged.  The code violates this for an `index_t` narrower than
`int` (here `uint8_t`, `Capacity = 16`): in the state with `m_head = 10`,
`m_tail = 250` the buffer is full by the code's own accessors
(`readAvailable() = 16`, `isFull()` true), yet `insert` returns `true` and
advances the head, because the promoted comparison `(m_head - m_tail) ==
buffer_size` computes the huge `size_t` value `2^64 - 240` instead of `16`.
The state is reachable (250 insert/remove pairs followed by 16 inserts). -/
theorem insert_on_wrapped_full_state_not_rejected :
    readAvailable 8 (⟨10, 250, fun _ => 0⟩ : CB Nat) = 16 ∧
    isFull 16 8 (⟨10, 250, fun _ => 0⟩ : CB Nat) = true ∧
    (insert 16 8 (⟨10, 250, fun _ => 0⟩ : CB Nat) 7).2 = true ∧
    (insert 16 8 (⟨10, 250, fun _ => 0⟩ : CB Nat) 7).1.m_head = 11 := by decide

/-- C3: the claim states that, for a power-of-two `Capacity` with `2^IndexWidth`
a multiple of `Capacity`, the invariant `head - tail ≤ Capacity` (difference
mod `2^IndexWidth`) is preserved by every public operation.  With
`Capacity = 16` and `index_t = uint8_t` (`2^8 = 16·16`), the state with
`m_head = 10`, `m_tail = 250` satisfies the invariant (`head - tail = 16`),
but `insert` (through the promoted full check, see `cmpDiff`) accepts the
element and leaves `head - tail = 17 > 16`: the invariant is not preserved. -/
theorem occupancy_invariant_not_preserved_by_insert :
    readAvailable 8 (⟨10, 250, fun _ => 0⟩ : CB Nat) ≤ 16 ∧
    16 < readAvailable 8 (insert 16 8 (⟨10, 250, fun _ => 0⟩ : CB Nat) 7).1 := by decide

/-- The constructor check always passes on a power-of-two capacity, for every
`index_t` width: for `k ≤ W` the mask is exact and `2^k & (2^k - 1) = 0`; for
`k > W` the truncated mask is `2^W - 1` and the low `W` bits of `2^k` are 0. -/
lemma ctorAssertOk_pow2 (k W : Nat) : ctorAssertOk (2 ^ k) W = true := by
  unfold ctorAssertOk bmask
  rcases le_or_lt k W with hkW | hWk
  · have hk : 0 < 2 ^ k := two_pow_pos k
    have hle : 2 ^ k ≤ 2 ^ W := Nat.pow_le_pow_right (by norm_num) hkW
    have h1 : (2 ^ k - 1) % 2 ^ W = 2 ^ k - 1 := Nat.mod_eq_of_lt (by omega)
    rw [h1, Nat.and_pow_two_sub_one_eq_mod, Nat.mod_self]
    rfl
  · have hW : 2 ^ k = 2 ^ (k - W) * 2 ^ W := by
      rw [← pow_add]
      congr 1
      omega
    have hpos : 0 < 2 ^ (k - W) := two_pow_pos _
    have hpW : 0 < 2 ^ W := two_pow_pos W
    have hsplit : 2 ^ (k - W) * 2 ^ W - 1 = (2 ^ (k - W) - 1) * 2 ^ W + (2 ^ W - 1) := by
      rcases Nat.exists_eq_succ_of_ne_zero (Nat.pos_iff_ne_zero.mp hpos) with ⟨a, ha⟩
      rw [ha, Nat.succ_mul, Nat.succ_sub_one]
      omega
    have h1 : (2 ^ k - 1) % 2 ^ W = 2 ^ W - 1 := by
      rw [hW, hsplit, Nat.add_comm, Nat.add_mul_mod_self_right, Nat.mod_eq_of_lt (by omega)]
    rw [h1, Nat.and_pow_two_sub_one_eq_mod, hW, Nat.mul_mod_left]
    rfl

/-- C9: the claim states that the constructor check
`(buffer_size & buffer_mask) == 0` succeeds exactly when `Capacity` is a power
of two.  With `index_t = uint8_t` the mask `buffer_size - 1` is truncated to
8 bits, and for `buffer_size = 768` (not a power of two) the check computes
`768 & 255 == 0`, which holds: construction succeeds on a non-power-of-two
capacity, contradicting the check's stated purpose. -/
theorem ctor_guard_accepts_non_pow2_capacity :
    ctorAssertOk 768 8 = true ∧ (∀ k : Nat, 768 ≠ 2 ^ k) ∧
    (∀ k W : Nat, ctorAssertOk (2 ^ k) W = true) := by
  refine ⟨by decide, ?_, ctorAssertOk_pow2⟩
  intro k hk
  rcases Nat.lt_or_ge k 10 with h | h
  · interval_cases k <;> norm_num at hk
  · have h1 : 2 ^ 10 ≤ 2 ^ k := Nat.pow_le_pow_right (by norm_num) h
    have h2 : (2 : Nat) ^ 10 = 1024 := by norm_num
    omega

/-- C2: the claim states that on every reachable state
`readAvailable() + writeAvailable() = Capacity`.  With `Capacity = 16` and
`index_t = uint8_t`, running 250 insert/remove pairs followed by 17 single
inserts from a freshly constructed buffer is a sequence of public operations
whose final state (reached because the 17th insert is wrongly accepted on a
wrapped full buffer, see `cmpDiff`) has `readAvailable() = 17` and
`writeAvailable() = 255`: the sum is `272`, not `16`. -/
theorem occupancy_sum_violated_on_reachable_state :
    readAvailable 8 (runOps 16 8 (⟨0, 0, fun _ => 0⟩ : CB Nat)
        (cycles 250 ++ List.replicate 17 (Op.ins 0)))
      + writeAvailable 16 8 (runOps 16 8 (⟨0, 0, fun _ => 0⟩ : CB Nat)
        (cycles 250 ++ List.replicate 17 (Op.ins 0))) = 272 ∧
    (272 : Nat) ≠ 16 := by
  refine ⟨?_, by norm_num⟩
  rw [runOps_append]
  obtain ⟨hh1, ht1, hg1⟩ := runOps_cycles 16 8 (by norm_num) (by norm_num) 250
    (⟨0, 0, fun _ => 0⟩ : CB Nat) 0 rfl rfl (fun _ => rfl) (by norm_num)
  obtain ⟨hh2, ht2, hg2⟩ := runOps_inserts 16 8 (by norm_num) (by norm_num) 17 0 250
    (runOps 16 8 (⟨0, 0, fun _ => 0⟩ : CB Nat) (cycles 250))
    (by norm_num [hh1]) (by norm_num [ht1]) hg1
    (by norm_num) (by norm_num) (by intro i hi hlt; omega)
  unfold readAvailable writeAvailable isub
  rw [hh2, ht2]
  norm_num

/-- C4: the claim states that on every reachable state `at(i)` returns `NULL`
whenever `i ≥ readAvailable()`, for every `IndexWidth` including counter types
narrower than the index argument.  With `Capacity = 16` and
`index_t = uint8_t`, running 255 insert/remove pairs followed by 2 inserts
reaches the state `m_head = 1`, `m_tail = 255` with `readAvailable() = 2`;
there `at(5)` must return `NULL`, but the promoted comparison
`(m_head - m_tail) <= index` compares the huge `size_t` value `2^64 - 254`
against `5` and the code returns a (dangling, out-of-range) element pointer
instead. -/
theorem at_out_of_range_not_null :
    readAvailable 8 (runOps 16 8 (⟨0, 0, fun _ => 0⟩ : CB Nat)
      (cycles 255 ++ List.replicate 2 (Op.ins 0))) = 2 ∧
    (atIdx 16 8 (runOps 16 8 (⟨0, 0, fun _ => 0⟩ : CB Nat)
      (cycles 255 ++ List.replicate 2 (Op.ins 0))) 5).2 = some 0 := by
  rw [runOps_append]
  obtain ⟨hh1, ht1, hg1⟩ := runOps_cycles 16 8 (by norm_num) (by norm_num) 255
    (⟨0, 0, fun _ => 0⟩ : CB Nat) 0 rfl rfl (fun _ => rfl) (by norm_num)
  obtain ⟨hh2, ht2, hg2⟩ := runOps_inserts 16 8 (by norm_num) (by norm_num) 2 0 255
    (runOps 16 8 (⟨0, 0, fun _ => 0⟩ : CB Nat) (cycles 255))
    (by norm_num [hh1]) (by norm_num [ht1]) hg1
    (by norm_num) (by norm_num) (by intro i hi hlt; omega)
  constructor
  · unfold readAvailable isub
    rw [hh2, ht2]
    norm_num
  · have hc : ¬ cmpDiff 8 ((255 + 0 + 2) % 2 ^ 8) 255 ≤ 5 := by decide
    simp only [atIdx, hh2, ht2]
    rw [if_neg hc, show (255 + 5) &&& bmask 16 8 = 4 from by decide, hg2]

/-- C6: remove on an empty buffer is a rejected no-op, remove on a non-empty
buffer pops the slot at `tail & mask`.  For every state with
`m_tail = m_head`, `remove(T*)` returns `false` with the output argument
unmodified (`none`) and the state unchanged, and `remove()` returns `false`
with the state unchanged; for every state with `m_tail ≠ m_head`,
`remove(T*)` copies `m_dataBuff[m_tail & buffer_mask]` into the output,
increments the tail, and returns `true`, and `remove()` increments the tail
and returns `true`. -/
theorem remove_empty_noop_nonempty_pops {α : Type} (cap W : Nat) (s₁ s₂ : CB α)
    (h1 : s₁.m_tail = s₁.m_head) (h2 : s₂.m_tail ≠ s₂.m_head) :
    removePtr cap W s₁ = (s₁, none) ∧
    removeVoid W s₁ = (s₁, false) ∧
    removePtr cap W s₂ =
      ({ s₂ with m_tail := (s₂.m_tail + 1) % 2 ^ W },
        some (s₂.m_dataBuff (s₂.m_tail &&& bmask cap W))) ∧
    removeVoid W s₂ = ({ s₂ with m_tail := (s₂.m_tail + 1) % 2 ^ W }, true) := by
  refine ⟨?_, ?_, ?_, ?_⟩ <;> simp [removePtr, removeVoid, h1, h2]

/-- Witness for C6 at concrete states: an empty buffer with both counters at 2
and a one-past state holding the value 7 everywhere. -/
theorem remove_empty_noop_nonempty_pops_witness :
    removePtr 4 8 (⟨2, 2, fun _ => 7⟩ : CB Nat) = (⟨2, 2, fun _ => 7⟩, none) ∧
    removeVoid 8 (⟨2, 2, fun _ => 7⟩ : CB Nat) = (⟨2, 2, fun _ => 7⟩, false) ∧
    removePtr 4 8 (⟨3, 1, fun _ => 7⟩ : CB Nat) = (⟨3, 2, fun _ => 7⟩, some 7) ∧
    removeVoid 8 (⟨3, 1, fun _ => 7⟩ : CB Nat) = (⟨3, 2, fun _ => 7⟩, true) :=
  remove_empty_noop_nonempty_pops 4 8 _ _ rfl (by decide)

/-- C7: bulk remove clamps to availability.  `remove(cnt)` advances the tail by
exactly `min cnt (readAvailable())`, returns that clamped count, and touches
neither the head nor any storage slot; when the requested count exceeds
`readAvailable()`, the returned count is the old `readAvailable()` and the
buffer is empty afterwards. -/
theorem removeCnt_clamps_to_available {α : Type} (W : Nat) (s : CB α) (cnt big : Nat)
    (hh : s.m_head < 2 ^ W) (ht : s.m_tail < 2 ^ W)
    (hbig : readAvailable W s < big) :
    removeCnt W s cnt =
      ({ s with m_tail := (s.m_tail + min cnt (readAvailable W s)) % 2 ^ W },
        min cnt (readAvailable W s)) ∧
    (removeCnt W s cnt).1.m_head = s.m_head ∧
    (removeCnt W s cnt).1.m_dataBuff = s.m_dataBuff ∧
    (removeCnt W s big).2 = readAvailable W s ∧
    isEmpty W (removeCnt W s big).1 = true := by
  have hmin : (if isub W s.m_head s.m_tail < cnt then isub W s.m_head s.m_tail else cnt)
      = min cnt (isub W s.m_head s.m_tail) := by
    rcases Nat.lt_or_ge (isub W s.m_head s.m_tail) cnt with h | h
    · rw [if_pos h, Nat.min_def, if_neg (by omega)]
    · rw [if_neg (by omega), Nat.min_def, if_pos h]
  have hbig' : isub W s.m_head s.m_tail < big := hbig
  refine ⟨?_, rfl, rfl, ?_, ?_⟩
  · simp only [removeCnt, readAvailable, hmin]
  · simp only [removeCnt, readAvailable]
    rw [if_pos hbig']
  · simp only [removeCnt, isEmpty, readAvailable]
    rw [if_pos hbig', tail_add_isub hh ht, isub_self]
    rfl

/-- Witness for C7: a buffer of occupancy 3 (`head 5`, `tail 2`, `W = 8`),
removing 2 elements and then over-removing with a request of 9. -/
theorem removeCnt_clamps_to_available_witness :
    removeCnt 8 (⟨5, 2, fun _ => 0⟩ : CB Nat) 2 = (⟨5, 4, fun _ => 0⟩, 2) ∧
    (removeCnt 8 (⟨5, 2, fun _ => 0⟩ : CB Nat) 2).1.m_head = 5 ∧
    (removeCnt 8 (⟨5, 2, fun _ => 0⟩ : CB Nat) 2).1.m_dataBuff = (fun _ => 0) ∧
    (removeCnt 8 (⟨5, 2, fun _ => 0⟩ : CB Nat) 9).2 = 3 ∧
    isEmpty 8 (removeCnt 8 (⟨5, 2, fun _ => 0⟩ : CB Nat) 9).1 = true :=
  removeCnt_clamps_to_available 8 _ 2 9 (by decide) (by decide) (by decide)

/-- C10: frame property of the producer and consumer sides.  `insert` and
`writeBuff` never modify the tail counter; `remove()` (all overloads),
`readBuff`, `peek` and `at` never modify the head counter; `peek` and `at`
modify neither counter nor any storage slot (they return the object state
unchanged). -/
theorem frame_of_operations {α : Type} (cap W : Nat) (s : CB α) (v : α)
    (vs : List α) (cnt n i : Nat) :
    (insert cap W s v).1.m_tail = s.m_tail ∧
    (writeBuff cap W s vs cnt).1.m_tail = s.m_tail ∧
    (removeVoid W s).1.m_head = s.m_head ∧
    (removePtr cap W s).1.m_head = s.m_head ∧
    (removeRef cap W s).1.m_head = s.m_head ∧
    (removeCnt W s cnt).1.m_head = s.m_head ∧
    (readBuff cap W s n).1.m_head = s.m_head ∧
    (peek cap W s).1 = s ∧
    (atIdx cap W s i).1 = s := by
  refine ⟨?_, ?_, ?_, ?_, ?_, rfl, ?_, rfl, rfl⟩
  · simp only [insert]; split <;> rfl
  · simp only [writeBuff]; exact writeLoop_tail cap W _ s
  · simp only [removeVoid]; split <;> rfl
  · simp only [removePtr]; split <;> rfl
  · simp only [removeRef, removePtr]; split <;> rfl
  · simp only [readBuff]; exact readLoop_head cap W _ s

/-- Characterization of a burst of successful inserts into a buffer with the
tail at 0 and the head at `k`: with a power-of-two capacity `2^j`, `j < W`, and
`k + |vs|` within capacity, every insert succeeds, the head advances to
`k + |vs|`, slots below `k` keep their old contents and slot `k + i` receives
the `i`-th inserted value. -/
lemma insertAll_run {α : Type} {W j : Nat} (hjW : j < W) :
    ∀ (vs : List α) (k : Nat) (g : Nat → α), k + vs.length ≤ 2 ^ j →
      (insertAll (2 ^ j) W ⟨k, 0, g⟩ vs).2 = true ∧
      (insertAll (2 ^ j) W ⟨k, 0, g⟩ vs).1.m_head = k + vs.length ∧
      (insertAll (2 ^ j) W ⟨k, 0, g⟩ vs).1.m_tail = 0 ∧
      (∀ i, i < k → (insertAll (2 ^ j) W ⟨k, 0, g⟩ vs).1.m_dataBuff i = g i) ∧
      (∀ i, (hi : i < vs.length) →
        (insertAll (2 ^ j) W ⟨k, 0, g⟩ vs).1.m_dataBuff (k + i) = vs.get ⟨i, hi⟩) := by
  intro vs
  induction vs with
  | nil =>
    intro k g hk
    refine ⟨rfl, rfl, rfl, fun i _ => rfl, fun i hi => absurd hi (by simp)⟩
  | cons v rest ih =>
    intro k g hk
    have hpj : 0 < 2 ^ j := two_pow_pos j
    have hjlt : 2 ^ j < 2 ^ W := Nat.pow_lt_pow_right (by norm_num) hjW
    have hlen : k + (rest.length + 1) ≤ 2 ^ j := by simpa using hk
    have hkW : k < 2 ^ W := by omega
    have hfull : cmpDiff W k 0 ≠ 2 ^ j := by
      rw [cmpDiff_of_le hkW (Nat.zero_le k)]
      omega
    have hins : insert (2 ^ j) W (⟨k, 0, g⟩ : CB α) v =
        ((⟨k + 1, 0, fun i => if i = k then v else g i⟩ : CB α), true) := by
      simp only [insert]
      rw [if_neg hfull]
      have e1 : (k + 1) % 2 ^ W = k + 1 := Nat.mod_eq_of_lt (by omega)
      have e2 : k &&& bmask (2 ^ j) W = k := by
        rw [land_bmask (le_of_lt hjW)]
        exact Nat.mod_eq_of_lt (by omega)
      rw [e1, e2]
    have hstep : insertAll (2 ^ j) W (⟨k, 0, g⟩ : CB α) (v :: rest) =
        ((insertAll (2 ^ j) W (⟨k + 1, 0, fun i => if i = k then v else g i⟩ : CB α) rest).1,
         true && (insertAll (2 ^ j) W
           (⟨k + 1, 0, fun i => if i = k then v else g i⟩ : CB α) rest).2) := by
      simp only [insertAll, hins]
    obtain ⟨ih1, ih2, ih3, ih4, ih5⟩ :=
      ih (k + 1) (fun i => if i = k then v else g i) (by omega)
    rw [hstep]
    refine ⟨by simpa using ih1, ?_, ih3, ?_, ?_⟩
    · rw [ih2]
      simp only [List.length_cons]
      omega
    · intro i hik
      rw [ih4 i (by omega)]
      simp only [if_neg (by omega : ¬ i = k)]
    · intro i hi
      match i with
      | 0 =>
        have := ih4 k (by omega)
        simpa using this
      | Nat.succ i' =>
        have hi' : i' < rest.length := by simpa using hi
        have := ih5 i' hi'
        rw [show k + (i' + 1) = k + 1 + i' by omega]
        simpa using this

/-- If a burst of inserts into a buffer with the tail at 0 and the head at `k`
overruns the capacity `2^j`, at least one insert reports failure. -/
lemma insertAll_overflow {α : Type} {W j : Nat} (hjW : j < W) :
    ∀ (vs : List α) (k : Nat) (g : Nat → α), k ≤ 2 ^ j → 2 ^ j < k + vs.length →
      (insertAll (2 ^ j) W ⟨k, 0, g⟩ vs).2 = false := by
  intro vs
  induction vs with
  | nil =>
    intro k g hk hover
    simp at hover
    omega
  | cons v rest ih =>
    intro k g hk hover
    have hpj : 0 < 2 ^ j := two_pow_pos j
    have hjlt : 2 ^ j < 2 ^ W := Nat.pow_lt_pow_right (by norm_num) hjW
    rcases Nat.lt_or_ge k (2 ^ j) with hklt | hkge
    · have hkW : k < 2 ^ W := by omega
      have hfull : cmpDiff W k 0 ≠ 2 ^ j := by
        rw [cmpDiff_of_le hkW (Nat.zero_le k)]
        omega
      have hins : insert (2 ^ j) W (⟨k, 0, g⟩ : CB α) v =
          ((⟨k + 1, 0, fun i => if i = k then v else g i⟩ : CB α), true) := by
        simp only [insert]
        rw [if_neg hfull]
        have e1 : (k + 1) % 2 ^ W = k + 1 := Nat.mod_eq_of_lt (by omega)
        have e2 : k &&& bmask (2 ^ j) W = k := by
          rw [land_bmask (le_of_lt hjW)]
          exact Nat.mod_eq_of_lt (by omega)
        rw [e1, e2]
      have hrest := ih (k + 1) (fun i => if i = k then v else g i) (by omega)
        (by simp at hover ⊢; omega)
      simp only [insertAll, hins, Bool.true_and]
      exact hrest
    · have hkeq : k = 2 ^ j := by omega
      have hkW : k < 2 ^ W := by omega
      have hfull : cmpDiff W k 0 = 2 ^ j := by
        rw [cmpDiff_of_le hkW (Nat.zero_le k)]
        omega
      have hins : insert (2 ^ j) W (⟨k, 0, g⟩ : CB α) v = ((⟨k, 0, g⟩ : CB α), false) := by
        simp only [insert]
        rw [if_pos hfull]
      simp only [insertAll, hins, Bool.false_and]

/-- Characterization of a burst of `remove(T*)` calls: from a state whose tail
is at `k`, whose head is at least `k + |l|` and within the power-of-two
capacity `2^j < 2^W`, and whose slots `k + i` hold the values of `l`, every
call succeeds and pops the values of `l` in order. -/
lemma removeAllPtr_run {α : Type} {W j : Nat} (hjW : j < W) :
    ∀ (l : List α) (k : Nat) (s : CB α), s.m_tail = k → s.m_head ≤ 2 ^ j →
      k + l.length ≤ s.m_head →
      (∀ i, (hi : i < l.length) → s.m_dataBuff (k + i) = l.get ⟨i, hi⟩) →
      (removeAllPtr (2 ^ j) W s l.length).2 = l.map some := by
  intro l
  induction l with
  | nil => intro k s _ _ _ _; rfl
  | cons v rest ih =>
    intro k s htail hcap hlen hval
    have hpj : 0 < 2 ^ j := two_pow_pos j
    have hjlt : 2 ^ j < 2 ^ W := Nat.pow_lt_pow_right (by norm_num) hjW
    have hklen : k + (rest.length + 1) ≤ s.m_head := by simpa using hlen
    have hne : s.m_tail ≠ s.m_head := by omega
    have hrm : removePtr (2 ^ j) W s =
        ({ s with m_tail := (s.m_tail + 1) % 2 ^ W },
          some (s.m_dataBuff (s.m_tail &&& bmask (2 ^ j) W))) := by
      simp only [removePtr]
      rw [if_neg hne]
    have hmaskv : s.m_dataBuff (s.m_tail &&& bmask (2 ^ j) W) = v := by
      rw [land_bmask (le_of_lt hjW), htail, Nat.mod_eq_of_lt (by omega)]
      have := hval 0 (by simp)
      simpa using this
    have htail1 : (s.m_tail + 1) % 2 ^ W = k + 1 := by
      rw [htail]
      exact Nat.mod_eq_of_lt (by omega)
    have hrest := ih (k + 1) ({ s with m_tail := (s.m_tail + 1) % 2 ^ W })
      (by simpa using htail1) (by simpa using hcap) (by simpa using by omega)
      (by
        intro i hi
        have := hval (i + 1) (by simpa using hi)
        rw [show k + 1 + i = k + (i + 1) by omega]
        simpa using this)
    show (removeAllPtr (2 ^ j) W s (rest.length + 1)).2 = some v :: rest.map some
    simp only [removeAllPtr, hrm, hmaskv]
    rw [hrest]

/-- C1: FIFO order.  For every buffer created empty (both counters 0, arbitrary
initial storage), every power-of-two capacity `2^j` with an `index_t` wide
enough to count it (`j < W`), and every burst of inserts of `vs` that all
report success, a following burst of `|vs|` calls to `remove(T*)` succeeds each
time and pops exactly the values of `vs` in insertion order. -/
theorem fifo_insert_then_remove {α : Type} (cap W j : Nat) (f : Nat → α) (vs : List α)
    (hcap : cap = 2 ^ j) (hjW : j < W)
    (hok : (insertAll cap W ⟨0, 0, f⟩ vs).2 = true) :
    (removeAllPtr cap W (insertAll cap W ⟨0, 0, f⟩ vs).1 vs.length).2 = vs.map some := by
  subst hcap
  have hle : vs.length ≤ 2 ^ j := by
    by_contra hgt
    have := insertAll_overflow (α := α) hjW vs 0 f (Nat.zero_le _) (by omega)
    rw [this] at hok
    exact Bool.false_ne_true hok
  obtain ⟨h1, h2, h3, h4, h5⟩ := insertAll_run (α := α) hjW vs 0 f (by omega)
  exact removeAllPtr_run hjW vs 0 _ h3 (by omega) (by omega) (fun i hi => by simpa using h5 i hi)

/-- Witness for C1: inserting 10, 20, 30 into an empty buffer of capacity 4
with 8-bit counters, then removing three times, pops 10, 20, 30 in order. -/
theorem fifo_insert_then_remove_witness :
    (removeAllPtr 4 8 (insertAll 4 8 (⟨0, 0, fun _ => 0⟩ : CB Nat) [10, 20, 30]).1 3).2 =
      [some 10, some 20, some 30] :=
  fifo_insert_then_remove 4 8 2 _ [10, 20, 30] rfl (by norm_num) (by decide)

lemma add_mod_ne {m h d : Nat} (hdvd : ¬ m ∣ d) : (h + d) % m ≠ h % m := by
  intro he
  have h1 : h + d ≡ h + 0 [MOD m] := by simpa [Nat.ModEq] using he
  have h2 : d ≡ 0 [MOD m] := Nat.ModEq.add_left_cancel (Nat.ModEq.refl h) h1
  exact hdvd (Nat.modEq_zero_iff_dvd.mp h2)

lemma writeLoop_head (cap W : Nat) :
    ∀ (l : List α) (s : CB α), s.m_head < 2 ^ W →
      (writeLoop cap W s l).m_head = (s.m_head + l.length) % 2 ^ W := by
  intro l
  induction l with
  | nil =>
    intro s hh
    show s.m_head = (s.m_head + 0) % 2 ^ W
    rw [Nat.add_zero, Nat.mod_eq_of_lt hh]
  | cons d rest ih =>
    intro s hh
    have hp : 0 < 2 ^ W := two_pow_pos W
    show (writeLoop cap W _ rest).m_head = (s.m_head + (rest.length + 1)) % 2 ^ W
    rw [ih _ (Nat.mod_lt _ hp), Nat.mod_add_mod,
      show s.m_head + 1 + rest.length = s.m_head + (rest.length + 1) by omega]

/-- Slots not written by a `writeBuff` loop keep their contents. -/
lemma writeLoop_frame {α : Type} {W j : Nat} (hjW : j ≤ W) :
    ∀ (l : List α) (s : CB α) (idx : Nat), s.m_head < 2 ^ W →
      (∀ i, i < l.length → idx ≠ (s.m_head + i) % 2 ^ j) →
      (writeLoop (2 ^ j) W s l).m_dataBuff idx = s.m_dataBuff idx := by
  intro l
  induction l with
  | nil => intro s idx _ _; rfl
  | cons d rest ih =>
    intro s idx hh hnot
    have hp : 0 < 2 ^ W := two_pow_pos W
    show (writeLoop (2 ^ j) W
      (⟨(s.m_head + 1) % 2 ^ W, s.m_tail,
        fun i => if i = s.m_head &&& bmask (2 ^ j) W then d else s.m_dataBuff i⟩ : CB α)
      rest).m_dataBuff idx = s.m_dataBuff idx
    rw [ih _ idx (Nat.mod_lt _ hp) ?later]
    case later =>
      intro i hi
      rw [show ((⟨(s.m_head + 1) % 2 ^ W, s.m_tail, _⟩ : CB α)).m_head = (s.m_head + 1) % 2 ^ W
        from rfl, modW_add_mod hjW, show s.m_head + 1 + i = s.m_head + (i + 1) by omega]
      exact hnot (i + 1) (by simpa using hi)
    dsimp only
    rw [land_bmask hjW, if_neg ?slot0]
    case slot0 =>
      have := hnot 0 (by simp)
      simpa using this

/-- The slots written by a `writeBuff` loop of at most capacity-many elements
hold exactly the source values in order. -/
lemma writeLoop_sets {α : Type} {W j : Nat} (hjW : j ≤ W) :
    ∀ (l : List α) (s : CB α), s.m_head < 2 ^ W → l.length ≤ 2 ^ j →
      ∀ i, (hi : i < l.length) →
        (writeLoop (2 ^ j) W s l).m_dataBuff ((s.m_head + i) % 2 ^ j) = l.get ⟨i, hi⟩ := by
  intro l
  induction l with
  | nil => intro s _ _ i hi; exact absurd hi (by simp)
  | cons d rest ih =>
    intro s hh hlen i hi
    have hp : 0 < 2 ^ W := two_pow_pos W
    have hpj : 0 < 2 ^ j := two_pow_pos j
    have hlen' : rest.length + 1 ≤ 2 ^ j := by simpa using hlen
    show (writeLoop (2 ^ j) W
      (⟨(s.m_head + 1) % 2 ^ W, s.m_tail,
        fun i => if i = s.m_head &&& bmask (2 ^ j) W then d else s.m_dataBuff i⟩ : CB α)
      rest).m_dataBuff ((s.m_head + i) % 2 ^ j) = (d :: rest).get ⟨i, hi⟩
    match i with
    | 0 =>
      rw [writeLoop_frame hjW rest _ _ (Nat.mod_lt _ hp) ?notouch]
      case notouch =>
        intro i' hi'
        rw [show ((⟨(s.m_head + 1) % 2 ^ W, s.m_tail, _⟩ : CB α)).m_head = (s.m_head + 1) % 2 ^ W
          from rfl, modW_add_mod hjW, Nat.add_zero,
          show s.m_head + 1 + i' = s.m_head + (1 + i') by omega]
        exact (add_mod_ne (by
          intro hdvd
          have := Nat.le_of_dvd (by omega) hdvd
          omega)).symm
      dsimp only
      rw [land_bmask hjW, Nat.add_zero, if_pos rfl]
      rfl
    | Nat.succ i' =>
      have hi'' : i' < rest.length := by simpa using hi
      have := ih (⟨(s.m_head + 1) % 2 ^ W, s.m_tail,
          fun i => if i = s.m_head &&& bmask (2 ^ j) W then d else s.m_dataBuff i⟩ : CB α)
        (Nat.mod_lt _ hp) (by omega) i' hi''
      rw [show ((⟨(s.m_head + 1) % 2 ^ W, s.m_tail, _⟩ : CB α)).m_head = (s.m_head + 1) % 2 ^ W
        from rfl, modW_add_mod hjW] at this
      rw [show s.m_head + (i' + 1) = s.m_head + 1 + i' by omega]
      exact this

/-- A `readBuff` loop over slots holding the values of `l` pops exactly `l`. -/
lemma readLoop_run {α : Type} {W j : Nat} (hjW : j ≤ W) :
    ∀ (l : List α) (s : CB α), s.m_tail < 2 ^ W → l.length ≤ 2 ^ j →
      (∀ i, (hi : i < l.length) → s.m_dataBuff ((s.m_tail + i) % 2 ^ j) = l.get ⟨i, hi⟩) →
      (readLoop (2 ^ j) W s l.length).2 = l := by
  intro l
  induction l with
  | nil => intro s _ _ _; rfl
  | cons v rest ih =>
    intro s ht hlen hval
    have hp : 0 < 2 ^ W := two_pow_pos W
    show (s.m_dataBuff (s.m_tail &&& bmask (2 ^ j) W)) ::
      (readLoop (2 ^ j) W ({ s with m_tail := (s.m_tail + 1) % 2 ^ W } : CB α) rest.length).2
      = v :: rest
    have hv : s.m_dataBuff (s.m_tail &&& bmask (2 ^ j) W) = v := by
      rw [land_bmask hjW]
      have := hval 0 (by simp)
      simpa using this
    rw [hv, ih ({ s with m_tail := (s.m_tail + 1) % 2 ^ W } : CB α) (Nat.mod_lt _ hp)
      (by simp only [List.length_cons] at hlen; omega) ?vals]
    case vals =>
      intro i hi
      show s.m_dataBuff (((s.m_tail + 1) % 2 ^ W + i) % 2 ^ j) = rest.get ⟨i, hi⟩
      rw [modW_add_mod hjW, show s.m_tail + 1 + i = s.m_tail + (i + 1) by omega]
      have := hval (i + 1) (by simpa using hi)
      simpa using this

/-- C8 counterexample: the round-trip claim fails on a reachable non-empty
buffer.  With capacity 4 and 32-bit counters, after inserting 9 into a fresh
buffer the state is reachable and `1 ≤ writeAvailable()`, and writing the one
element `7` with `writeBuff` returns 1 — but the subsequent `readBuff` of one
element yields the oldest pending element `9`, not the just-written `7`,
because the buffer is a FIFO and was not empty before the write. -/
theorem roundtrip_fails_on_nonempty_state :
    (1 : Nat) ≤ writeAvailable 4 32 (insert 4 32 (⟨0, 0, fun _ => 0⟩ : CB Nat) 9).1 ∧
    (writeBuff 4 32 (insert 4 32 (⟨0, 0, fun _ => 0⟩ : CB Nat) 9).1 [7] 1).2 = 1 ∧
    (readBuff 4 32 (writeBuff 4 32 (insert 4 32 (⟨0, 0, fun _ => 0⟩ : CB Nat) 9).1 [7] 1).1
      1).2.1 = [9] ∧
    ([9] : List Nat) ≠ [7] := by
  refine ⟨by decide, by decide, by decide, by decide⟩

/-- C8 as amended: on an *empty* buffer, writing `k ≤ writeAvailable()`
elements with `writeBuff` returns `k` and a subsequent `readBuff` of `k`
elements returns `k` and yields exactly those elements in order; and on any
well-formed state, `writeBuff` with `count > writeAvailable()` stores exactly
the first `writeAvailable()` source elements and returns that count (the
remaining source elements are not stored).  Capacity is a power of two `2^j`
with `j < W`. -/
theorem writeBuff_readBuff_props {α : Type} (cap W j : Nat) (s₁ s₂ : CB α)
    (vs₁ vs₂ : List α) (cnt : Nat)
    (hcap : cap = 2 ^ j) (hjW : j < W)
    (hh1 : s₁.m_head < 2 ^ W) (ht1 : s₁.m_tail < 2 ^ W) (hemp : s₁.m_head = s₁.m_tail)
    (hlen : vs₁.length ≤ writeAvailable cap W s₁)
    (hover : writeAvailable cap W s₂ < cnt) :
    (writeBuff cap W s₁ vs₁ vs₁.length).2 = vs₁.length ∧
    (readBuff cap W (writeBuff cap W s₁ vs₁ vs₁.length).1 vs₁.length).2.1 = vs₁ ∧
    (readBuff cap W (writeBuff cap W s₁ vs₁ vs₁.length).1 vs₁.length).2.2 = vs₁.length ∧
    writeBuff cap W s₂ vs₂ cnt =
      (writeLoop cap W s₂ (vs₂.take (writeAvailable cap W s₂)), writeAvailable cap W s₂) := by
  subst hcap
  have hpj : 0 < 2 ^ j := two_pow_pos j
  have hp : 0 < 2 ^ W := two_pow_pos W
  have hjlt : 2 ^ j < 2 ^ W := Nat.pow_lt_pow_right (by norm_num) hjW
  have hwa1 : writeAvailable (2 ^ j) W s₁ = 2 ^ j := by
    unfold writeAvailable
    rw [hemp, isub_self]
    unfold isub
    rw [Nat.sub_zero, Nat.add_mod_right, Nat.mod_eq_of_lt hjlt]
  have hwa1' : isub W (2 ^ j) (isub W s₁.m_head s₁.m_tail) = 2 ^ j := hwa1
  have hlen1 : vs₁.length ≤ 2 ^ j := hwa1 ▸ hlen
  have hS : (writeBuff (2 ^ j) W s₁ vs₁ vs₁.length).1 = writeLoop (2 ^ j) W s₁ vs₁ := by
    simp only [writeBuff]
    rw [hwa1', if_neg (by omega), List.take_length]
  have hret : (writeBuff (2 ^ j) W s₁ vs₁ vs₁.length).2 = vs₁.length := by
    simp only [writeBuff]
    rw [hwa1', if_neg (by omega)]
  have headS : (writeLoop (2 ^ j) W s₁ vs₁).m_head = (s₁.m_head + vs₁.length) % 2 ^ W :=
    writeLoop_head (2 ^ j) W vs₁ s₁ hh1
  have tailS : (writeLoop (2 ^ j) W s₁ vs₁).m_tail = s₁.m_tail :=
    writeLoop_tail (2 ^ j) W vs₁ s₁
  have har : isub W (writeLoop (2 ^ j) W s₁ vs₁).m_head (writeLoop (2 ^ j) W s₁ vs₁).m_tail
      = vs₁.length := by
    rw [headS, tailS, hemp, isub_shift s₁.m_tail ht1, Nat.mod_eq_of_lt (by omega)]
  have hreadvals : ∀ i, (hi : i < vs₁.length) →
      (writeLoop (2 ^ j) W s₁ vs₁).m_dataBuff
        (((writeLoop (2 ^ j) W s₁ vs₁).m_tail + i) % 2 ^ j) = vs₁.get ⟨i, hi⟩ := by
    intro i hi
    rw [tailS, ← hemp]
    exact writeLoop_sets (le_of_lt hjW) vs₁ s₁ hh1 hlen1 i hi
  have hread : (readBuff (2 ^ j) W (writeLoop (2 ^ j) W s₁ vs₁) vs₁.length).2.1 = vs₁ ∧
      (readBuff (2 ^ j) W (writeLoop (2 ^ j) W s₁ vs₁) vs₁.length).2.2 = vs₁.length := by
    constructor
    · simp only [readBuff]
      rw [har, if_neg (by omega)]
      exact readLoop_run (le_of_lt hjW) vs₁ _ (tailS ▸ ht1) hlen1 hreadvals
    · simp only [readBuff]
      rw [har, if_neg (by omega)]
  refine ⟨hret, by rw [hS]; exact hread.1, by rw [hS]; exact hread.2, ?_⟩
  have hover' : isub W (2 ^ j) (isub W s₂.m_head s₂.m_tail) < cnt := hover
  simp only [writeBuff, writeAvailable]
  rw [if_pos hover']

/-- Witness for the amended C8: an empty buffer (`head = tail = 2`) of
capacity 4 with 8-bit counters round-trips `[5, 6, 7]` through
`writeBuff`/`readBuff`, and a buffer of occupancy 1 with
`writeAvailable() = 3` asked to write 4 elements stores exactly the first 3
and returns 3. -/
theorem writeBuff_readBuff_props_witness :
    (writeBuff 4 8 (⟨2, 2, fun _ => 0⟩ : CB Nat) [5, 6, 7] 3).2 = 3 ∧
    (readBuff 4 8 (writeBuff 4 8 (⟨2, 2, fun _ => 0⟩ : CB Nat) [5, 6, 7] 3).1 3).2.1 =
      [5, 6, 7] ∧
    (readBuff 4 8 (writeBuff 4 8 (⟨2, 2, fun _ => 0⟩ : CB Nat) [5, 6, 7] 3).1 3).2.2 = 3 ∧
    writeBuff 4 8 (⟨3, 2, fun _ => 0⟩ : CB Nat) [1, 2, 3, 4] 4 =
      (writeLoop 4 8 (⟨3, 2, fun _ => 0⟩ : CB Nat) [1, 2, 3], 3) :=
  writeBuff_readBuff_props 4 8 2 _ _ [5, 6, 7] [1, 2, 3, 4] 4 rfl (by norm_num)
    (by decide) (by decide) rfl (by decide) (by decide)

end CircularBuffer
